import Mathlib

/-!
Shallow embedding of the report-aggregation core of the Population_analysis
repository (`analysis.py`, plus the rate endpoint of `app.py`), together with
proofs settling the specification claims.

Modelling conventions:
* Spreadsheet cell values are `CellValue`: `null` models a pandas missing value
  (`NaN`/`NaT`/`None`), `str` a Python string cell, `num` a numeric cell.
  Python/numpy floating-point numbers are modelled as rationals.
* Text is Lean `String`; `re`'s `\d` is modelled as the ASCII digits `0`-`9`
  (file names and cells relevant to the claims use only those).
* Fallible Python code is modelled in `Except String`; a `.error` value models
  a raised exception, `Option` models `None` returns.
-/

namespace PopulationAnalysis

/-- A spreadsheet cell as pandas sees it: missing (`NaN`), a string, or a
number (Python/numpy numerics modelled as `ℚ`). -/
inductive CellValue where
  | null : CellValue
  | str (s : String) : CellValue
  | num (q : ℚ) : CellValue
deriving DecidableEq, Repr

/-- Whether a cell holds a string (Python `isinstance(value, str)`). -/
def CellValue.isStr : CellValue → Bool
  | .str _ => true
  | _ => false

/-- A calendar date `(year, month, day)`; models `pd.Timestamp` at midnight. -/
structure Date where
  y : Nat
  m : Nat
  d : Nat
deriving DecidableEq, Repr

/-- Lexicographic order on dates, as comparison of `pd.Timestamp`s. -/
def Date.le (a b : Date) : Bool :=
  a.y < b.y ∨ (a.y = b.y ∧ (a.m < b.m ∨ (a.m = b.m ∧ a.d ≤ b.d)))

/-- Digit test modelling `\d` restricted to ASCII decimal digits. -/
def isDig (c : Char) : Bool := '0' ≤ c ∧ c ≤ '9'

/-- Numeric value of a digit string (most significant first), as Python
`int()` on a decimal digit string. -/
def digitsVal (l : List Char) : Nat :=
  l.foldl (fun acc c => acc * 10 + (c.toNat - '0'.toNat)) 0

/-- Substring test: models Python's `needle in hay` / glob `*needle*`. -/
def containsSub (hay needle : String) : Bool :=
  let h := hay.toList
  let n := needle.toList
  (List.range (h.length + 1)).any (fun i => n.isPrefixOf (h.drop i))

/-- Whitespace trimming of a character list from both ends; models Python
`str.strip()` (restricted to the ASCII whitespace actually used by headers). -/
def stripChars (l : List Char) : List Char :=
  ((l.dropWhile Char.isWhitespace).reverse.dropWhile Char.isWhitespace).reverse

/-- Models Python `str(col).strip()` applied to a header cell. -/
def pyStrip (s : String) : String := String.mk (stripChars s.toList)

/-- Lexicographic comparison of character lists by code point; models Python
string ordering as used by `sorted(glob.glob(...))`. -/
def charsLe : List Char → List Char → Bool
  | [], _ => true
  | _ :: _, [] => false
  | a :: as, b :: bs => if a = b then charsLe as bs else decide (a < b)

/-- First-some choice, used to try the ordered date patterns in turn. -/
def optOr {α : Type} : Option α → Option α → Option α
  | some a, _ => some a
  | none, b => b

/-- Insertion step of the generic insertion sort. -/
def insertBy {α : Type} (le : α → α → Bool) (a : α) : List α → List α
  | [] => [a]
  | x :: xs => if le a x then a :: x :: xs else x :: insertBy le a xs

/-- Generic insertion sort, used to model the sorting steps of the pipeline
(`sorted(...)`, `sort_values`, `sort_index`); every property proved below is
invariant under the permutation of tied elements, so the stability difference
from the pandas quicksort is immaterial. -/
def sortBy {α : Type} (le : α → α → Bool) : List α → List α
  | [] => []
  | a :: as => insertBy le a (sortBy le as)

/-! ### Date Extractor (`DATE_PATTERNS`, `parse_week_end_date_from_filename`) -/

/-- Consume exactly `n` decimal digits from the front of `l`, returning the
digits and the remainder; models `\d{n}` matched at a fixed position. -/
def takeDigits : Nat → List Char → Option (List Char × List Char)
  | 0, l => some ([], l)
  | _ + 1, [] => none
  | n + 1, c :: rest =>
    if isDig c then
      match takeDigits n rest with
      | some (ds, rem) => some (c :: ds, rem)
      | none => none
    else none

/-- Greedy match of `(\d{1,2})` followed by the literal `marker` at a fixed
position: two digits are tried first, then one, as a backtracking regex
engine does. Returns the captured number and the remainder. -/
def matchOneTwoDigits (marker : Char) (l : List Char) : Option (Nat × List Char) :=
  match l with
  | c0 :: c1 :: c2 :: rest =>
    if isDig c0 ∧ isDig c1 ∧ c2 = marker then some (digitsVal [c0, c1], rest)
    else if isDig c0 ∧ c1 = marker then some (digitsVal [c0], c2 :: rest)
    else none
  | [c0, c1] => if isDig c0 ∧ c1 = marker then some (digitsVal [c0], []) else none
  | _ => none

/-- Match of the shared core `(\d{4})年(\d{1,2})月(\d{1,2})日` of every entry
of `DATE_PATTERNS` at the head of `l`, returning the three captured groups. -/
def matchYMD (l : List Char) : Option (Nat × Nat × Nat) :=
  match takeDigits 4 l with
  | none => none
  | some (ys, rest) =>
    match rest with
    | [] => none
    | c :: rest2 =>
      if c = '年' then
        match matchOneTwoDigits '月' rest2 with
        | none => none
        | some (m, rest3) =>
          match matchOneTwoDigits '日' rest3 with
          | none => none
          | some (d, _) => some (digitsVal ys, m, d)
      else none

/-- Leftmost search for `glyph` immediately followed by the date core; models
`re.search` for the separator-prefixed patterns of `DATE_PATTERNS`. -/
def searchPrefixed (glyph : Char) : List Char → Option (Nat × Nat × Nat)
  | [] => none
  | c :: rest =>
    if c = glyph then
      match matchYMD rest with
      | some t => some t
      | none => searchPrefixed glyph rest
    else searchPrefixed glyph rest

/-- Leftmost search for the bare date core; models `re.search` for the last
entry of `DATE_PATTERNS`. -/
def searchBare : List Char → Option (Nat × Nat × Nat)
  | [] => none
  | c :: rest =>
    match matchYMD (c :: rest) with
    | some t => some t
    | none => searchBare rest

/-- The ordered `DATE_PATTERNS` list: four separator-prefixed patterns
(`～`, `-`, `至`, `到`), then the bare pattern; the first pattern that
matches anywhere in the string wins. -/
def searchDatePatterns (l : List Char) : Option (Nat × Nat × Nat) :=
  optOr (searchPrefixed '～' l)
    (optOr (searchPrefixed '-' l)
      (optOr (searchPrefixed '至' l)
        (optOr (searchPrefixed '到' l) (searchBare l))))

/-- Models `os.path.basename`: the part after the last slash. -/
def basenameChars (l : List Char) : List Char :=
  (l.reverse.takeWhile (fun c => c ≠ '/')).reverse

/-- Gregorian leap-year rule, as used by `pd.Timestamp` validation. -/
def isLeapYear (y : Nat) : Bool := (y % 4 = 0 ∧ y % 100 ≠ 0) ∨ y % 400 = 0

/-- Number of days of month `m` of year `y`. -/
def daysInMonth (y m : Nat) : Nat :=
  if m = 2 then (if isLeapYear y then 29 else 28)
  else if m = 4 ∨ m = 6 ∨ m = 9 ∨ m = 11 then 30 else 31

/-- Lexicographic comparison of `(year, month, day)` triples. -/
def tripleLe (a b : Nat × Nat × Nat) : Bool :=
  a.1 < b.1 ∨ (a.1 = b.1 ∧ (a.2.1 < b.2.1 ∨ (a.2.1 = b.2.1 ∧ a.2.2 ≤ b.2.2)))

/-- Validity of `pd.Timestamp(year=y, month=m, day=d)`: a real calendar date
within the nanosecond-representable range (midnights from 1677-09-22 through
2262-04-11); outside it the constructor raises. -/
def validTimestamp (y m d : Nat) : Bool :=
  1 ≤ m ∧ m ≤ 12 ∧ 1 ≤ d ∧ d ≤ daysInMonth y m ∧
    tripleLe (1677, 9, 22) (y, m, d) ∧ tripleLe (y, m, d) (2262, 4, 11)

/-- Models the `pd.Timestamp(year=..., month=..., day=...)` constructor,
which raises on an invalid or out-of-range date. -/
def mkTimestamp (y m d : Nat) : Except String Date :=
  if validTimestamp y m d then .ok ⟨y, m, d⟩
  else .error "ValueError: invalid or out-of-range date"

/-- Embedding of `parse_week_end_date_from_filename`: try the ordered date
patterns on the basename; on the first match build a `pd.Timestamp` from the
last three captured groups (which can raise), otherwise return `None`. -/
def parse_week_end_date_from_filename (filePath : String) : Except String (Option Date) :=
  match searchDatePatterns (basenameChars filePath.toList) with
  | none => .ok none
  | some (y, m, d) => (mkTimestamp y m d).map Option.some

/-! ### Numeric coercion (`_coerce_numeric_columns`) -/

/-- Decimal-number parsing of a string cell: optional sign, digits, optional
fractional part, surrounding whitespace ignored; models the grammar subset of
`pd.to_numeric` exercised by report cells (scientific notation and other
exotic float syntax is out of scope and maps to `none`). -/
def parsePyNumber (s : List Char) : Option ℚ :=
  let core : List Char → Option ℚ := fun t =>
    let ip := t.takeWhile isDig
    let rest := t.dropWhile isDig
    match rest with
    | [] => if ip = [] then none else some ((digitsVal ip : ℤ) : ℚ)
    | '.' :: fp =>
      if fp.all isDig ∧ (ip ≠ [] ∨ fp ≠ []) then
        some (mkRat ((digitsVal ip : ℤ) * 10 ^ fp.length + digitsVal fp) (10 ^ fp.length))
      else none
    | _ => none
  match stripChars s with
  | '-' :: t => (core t).map (fun q => -q)
  | '+' :: t => core t
  | l => core l

/-- Models `pd.to_numeric(value, errors="coerce")` on one cell: numbers pass
through, parseable strings are converted, everything else becomes `NaN`. -/
def to_numeric_coerce : CellValue → Option ℚ
  | .null => none
  | .num q => some q
  | .str s => parsePyNumber s.toList

/-- Cell-level effect of `_coerce_numeric_columns`:
`pd.to_numeric(..., errors="coerce").fillna(0)`. -/
def coerceCell (v : CellValue) : ℚ := (to_numeric_coerce v).getD 0

/-! ### Report Loader (`read_single_report`) -/

/-- The eleven known numeric metric columns (`NUMERIC_COLUMNS_CANDIDATES`). -/
def NUMERIC_COLUMNS_CANDIDATES : List String :=
  ["主日", "兒童主日", "小排", "禱告", "晨興", "福音出訪",
   "家聚會出訪", "家聚會受訪", "召會生活", "新人主日", "新人家聚會受訪"]

/-- One row of the canonical projected table produced by `read_single_report`:
facility `會所`, region `大區`, sub-region `小區`, week-ending date `週末日`
(`none` models `NaT`), and the metric columns present in the source file
(a metric absent from the source file is absent from the list, modelling the
`NaN` column that `pd.concat` would fill in; after `_coerce_numeric_columns`
every present metric cell is a number). -/
structure Row where
  hall : CellValue
  region : CellValue
  sub : CellValue
  week : Option Date
  metrics : List (String × ℚ)
deriving DecidableEq, Repr

/-- Value of metric column `m` in row `r` (`none` when the column was absent
from the row file). -/
def Row.metric (r : Row) (m : String) : Option ℚ :=
  (r.metrics.find? (fun p => p.1 = m)).map (fun p => p.2)

/-- Deduplication key of `drop_duplicates(subset=["會所","大區","小區","週末日"])`. -/
def rowKey (r : Row) : CellValue × CellValue × CellValue × Option Date :=
  (r.hall, r.region, r.sub, r.week)

/-- A parsed spreadsheet as `pd.read_excel`/`pd.read_html` deliver it: a
header row and the data rows (each listed in header order; headers are
assumed pairwise distinct, as pandas mangles duplicate column names). -/
structure RawTable where
  header : List String
  rows : List (List CellValue)
deriving DecidableEq, Repr

/-- One file of the reports directory: its name, and the table obtained by
the fixed fallback chain of parse strategies — `none` models the case in
which every strategy raised, the reading itself being external I/O. -/
structure FileEntry where
  name : String
  content : Option RawTable
deriving DecidableEq, Repr

/-- Cell of column `c` in a row listed in `cols` order; missing positions
read as `NaN`. -/
def cellOf (cols : List String) (row : List CellValue) (c : String) : CellValue :=
  match List.indexOf? c cols with
  | some i => row.getD i .null
  | none => .null

/-- Header names after `_clean_table_headers` stripping. -/
def cleanHeader (t : RawTable) : List String := t.header.map pyStrip

/-- Embedding of `read_single_report`: resolve the week-ending date from the
filename (skip when absent, propagate the `pd.Timestamp` exception), give up
when no parse strategy produced a table, drop a duplicated header row, skip
when the region column `大區` is missing, synthesize `小區`/`會所` when
missing, coerce the metric columns, stamp the date, and project to the
canonical column set. `.ok none` is a skipped file; `.error` aborts the run. -/
def read_single_report (e : FileEntry) : Except String (Option (List Row)) :=
  match parse_week_end_date_from_filename e.name with
  | .error s => .error s
  | .ok none => .ok none
  | .ok (some wk) =>
    match e.content with
    | none => .ok none
    | some tbl =>
      let cols := cleanHeader tbl
      let dataRows :=
        if "大區" ∈ cols then
          tbl.rows.filter (fun r => cellOf cols r "大區" ≠ CellValue.str "大區")
        else tbl.rows
      if "大區" ∈ cols then
        let metricCols := NUMERIC_COLUMNS_CANDIDATES.filter (fun m => m ∈ cols)
        .ok (some (dataRows.map (fun r =>
          { hall := if "會所" ∈ cols then cellOf cols r "會所" else .str ""
            region := cellOf cols r "大區"
            sub := if "小區" ∈ cols then cellOf cols r "小區" else .str "未分小區"
            week := some wk
            metrics := metricCols.map (fun m => (m, coerceCell (cellOf cols r m))) })))
      else .ok none

/-! ### Summary-row filtering (`_is_summary_text`, `_remove_summary_rows`) -/

/-- The fixed total/subtotal keyword set. -/
def SUMMARY_KEYWORDS : List String := ["總計", "合計", "小計", "總數", "合共", "總和"]

/-- Embedding of `_is_summary_text`: non-string values are never summary
text; a string is summary text when it contains one of the keywords. -/
def _is_summary_text (v : CellValue) : Bool :=
  match v with
  | .str s => SUMMARY_KEYWORDS.any (fun k => containsSub s k)
  | _ => false

/-- Embedding of `_remove_summary_rows`: drop every row one of whose
identifying columns (`會所`, `大區`, `小區` — all present in the canonical
projection) is summary text. -/
def _remove_summary_rows (rows : List Row) : List Row :=
  rows.filter (fun r =>
    !(_is_summary_text r.hall || _is_summary_text r.region || _is_summary_text r.sub))

/-! ### Corpus Aggregator (`aggregate_reports`) -/

/-- Ordering of file entries by name; models `sorted(glob.glob(pattern))`. -/
def fileLe (a b : FileEntry) : Bool := charsLe a.name.toList b.name.toList

/-- Name-sorted file list (`sorted(glob.glob(pattern))`). -/
def sortFiles : List FileEntry → List FileEntry := sortBy fileLe

/-- Read every file in order, propagating a raised exception; the entry for a
skipped file is `none`. -/
def readAll : List FileEntry → Except String (List (Option (List Row)))
  | [] => .ok []
  | e :: es =>
    match read_single_report e with
    | .error s => .error s
    | .ok r =>
      match readAll es with
      | .error s => .error s
      | .ok rs => .ok (r :: rs)

/-- Ordering of corpus rows by week-ending date (`sort_values("週末日")`,
missing dates last as with `na_position="last"`). -/
def weekLe : Option Date → Option Date → Bool
  | none, none => true
  | none, some _ => false
  | some _, none => true
  | some a, some b => a.le b

/-- Ordering of corpus rows by week-ending date. -/
def rowLe (a b : Row) : Bool := weekLe a.week b.week

/-- Week-ascending sort of the corpus (`sort_values("週末日")`). -/
def sortByWeek : List Row → List Row := sortBy rowLe

/-- Keep-first deduplication on the identity key, with the keys seen so far
accumulated; models `drop_duplicates(subset=..., keep="first")`. -/
def dedupByKeyAux (seen : List (CellValue × CellValue × CellValue × Option Date)) :
    List Row → List Row
  | [] => []
  | r :: rest =>
    if rowKey r ∈ seen then dedupByKeyAux seen rest
    else r :: dedupByKeyAux (rowKey r :: seen) rest

/-- Keep-first deduplication on `(會所, 大區, 小區, 週末日)`. -/
def dedupByKey (l : List Row) : List Row := dedupByKeyAux [] l

/-- Embedding of `aggregate_reports`: glob `*.xls*` and sort by name; fail
fast when no file matches; read each file (a raised per-file exception
propagates); fail when no file was usable; concatenate, remove summary rows,
sort by week-ending date, deduplicate on the identity key. -/
def aggregate_reports (dir : List FileEntry) : Except String (List Row) :=
  if (sortFiles (dir.filter (fun e => containsSub e.name ".xls"))).isEmpty then
    .error "在資料夾中找不到報表檔案"
  else
    match readAll (sortFiles (dir.filter (fun e => containsSub e.name ".xls"))) with
    | .error s => .error s
    | .ok results =>
      if (results.filterMap id).isEmpty then .error "沒有任何可用的報表資料。"
      else .ok (dedupByKey (sortByWeek (_remove_summary_rows (results.filterMap id).flatten)))

/-! ### Time-Series Builder (`build_region_timeseries`) -/

/-- A Region Time Series: one entry per distinct week-ending date, in
ascending order, carrying the summed metric columns. -/
abbrev TS := List (Date × List (String × ℚ))

/-- Scope filter of `build_region_timeseries`: the sentinel `總計` keeps every
row, any other scope keeps the rows whose `大區` equals the scope string. -/
def scopeRows (all_reports : List Row) (region_name : String) : List Row :=
  if region_name = "總計" then all_reports
  else all_reports.filter (fun r => r.region = CellValue.str region_name)

/-- The metric columns of a row set: the candidates present in at least one
row (the dataframe columns carrying any value). -/
def presentCols (rows : List Row) : List String :=
  NUMERIC_COLUMNS_CANDIDATES.filter (fun m => rows.any (fun r => (r.metric m).isSome))

/-- Rows of one week group (`groupby("週末日")` drops missing keys). -/
def rowsOfWeek (rows : List Row) (w : Date) : List Row :=
  rows.filter (fun r => r.week = some w)

/-- Column sum of one group; `NaN` cells (absent metrics) count as zero, as
pandas `sum` skips them. -/
def sumMetric (rows : List Row) (m : String) : ℚ :=
  (rows.map (fun r => (r.metric m).getD 0)).sum

/-- Contribution of one row to the week-`w` sum of metric `m`: its value when
the row belongs to the week group, zero otherwise. -/
def contrib (w : Date) (m : String) (r : Row) : ℚ :=
  if r.week = some w then (r.metric m).getD 0 else 0

/-- Ascending sort of the distinct week keys (`sort_index()`). -/
def sortDates : List Date → List Date := sortBy Date.le

/-- The distinct week-ending dates of a row set, ascending. -/
def weeksOf (rows : List Row) : List Date :=
  sortDates (rows.filterMap (fun r => r.week)).dedup

/-- Lookup of a metric column in one time-series entry. -/
def tsGet (vals : List (String × ℚ)) (m : String) : Option ℚ :=
  (vals.find? (fun p => p.1 = m)).map (fun p => p.2)

/-- Derived total-visits column: when either visit sub-metric column exists,
append `總出訪` as their element-wise sum, an absent sub-metric counting as
the scalar zero. -/
def addTotalVisits (cols : List String) (ts : TS) : TS :=
  if "福音出訪" ∈ cols ∨ "家聚會出訪" ∈ cols then
    ts.map (fun p =>
      (p.1, p.2 ++ [("總出訪", (tsGet p.2 "福音出訪").getD 0 + (tsGet p.2 "家聚會出訪").getD 0)]))
  else ts

/-- Embedding of `build_region_timeseries`: filter to the scope, return the
empty series when nothing remains, group the rows by week-ending date,
sum each present metric column, sort by date, and add the derived
total-visits column. -/
def build_region_timeseries (all_reports : List Row) (region_name : String) : TS :=
  if (scopeRows all_reports region_name).isEmpty then []
  else
    addTotalVisits (presentCols (scopeRows all_reports region_name))
      ((weeksOf (scopeRows all_reports region_name)).map
        (fun w => (w, (presentCols (scopeRows all_reports region_name)).map
          (fun m => (m, sumMetric (rowsOfWeek (scopeRows all_reports region_name) w) m)))))

/-- Value of the series at week `w`, metric `m`; zero when the week or the
column is absent (the week-wise, metric-wise reading used to compare sums). -/
def tsVal (ts : TS) (w : Date) (m : String) : ℚ :=
  match ts.find? (fun p => p.1 = w) with
  | some p => (tsGet p.2 m).getD 0
  | none => 0

/-- The distinct region-name strings occurring in a corpus (non-string
region values, such as missing ones, have no name). -/
def regionNames (rows : List Row) : List String :=
  (rows.filterMap (fun r =>
    match r.region with
    | .str s => some s
    | _ => none)).dedup

/-- A Python heap object: a dataframe of corpus rows, or a grouped series. -/
inductive PyObj where
  | df (rows : List Row)
  | ts (t : TS)
deriving DecidableEq, Repr

/-- Heap of Python objects; references are list indices. -/
abbrev Heap := List PyObj

/-- Heap-level embedding of `build_region_timeseries`, making object identity
and in-place mutation explicit: the input dataframe is the object at index
`input`; `.copy()` and `groupby(...).sum()` allocate fresh objects (appended
cells), and the in-place `ts["總出訪"] = ...` assignment updates the freshly
allocated series cell only. Returns the final heap and the reference of the
returned object. -/
def build_region_timeseries_heap (h : Heap) (input : Nat) (region_name : String) :
    Heap × Nat :=
  let rows :=
    match h.getD input (.df []) with
    | .df rs => rs
    | .ts _ => []
  let region_df := scopeRows rows region_name
  let h1 := h ++ [PyObj.df region_df]
  if region_df.isEmpty then
    (h1 ++ [PyObj.df []], h1.length)
  else
    let cols := presentCols region_df
    let ts0 := (weeksOf region_df).map
      (fun w => (w, cols.map (fun m => (m, sumMetric (rowsOfWeek region_df w) m))))
    let h2 := h1 ++ [PyObj.ts ts0]
    let tsRef := h1.length
    (h2.set tsRef (PyObj.ts (addTotalVisits cols ts0)), tsRef)

/-! ### Rate Calculator (`calculate_rates` of `app.py`) -/

/-- One rate record of the endpoint response; `none` models `float("nan")`. -/
structure RateRecord where
  latest_rate : Option ℚ
  avg_rate : Option ℚ
  latest_count : ℚ
  avg_count : ℚ
deriving DecidableEq, Repr

/-- The four tracked metrics of the rate endpoint. -/
def METRICS : List String := ["主日", "小排", "晨興", "禱告"]

/-- Python division of native numbers: raises `ZeroDivisionError` on a zero
divisor, otherwise divides exactly (floats modelled as rationals). -/
def pyDiv (a b : ℚ) : Except String ℚ :=
  if b = 0 then .error "ZeroDivisionError: division by zero" else .ok (a / b)

/-- One iteration of the metric loop of `calculate_rates`: compute `formula`
and `avg_formula` eagerly (so a zero base raises before any guard runs), then
build the record, reporting `NaN` rates when the base is not positive. -/
def rate_entry (metric : String) (latest_count avg_count : ℚ) (base_number : ℤ) :
    Except String RateRecord :=
  match pyDiv (if metric = "主日" then latest_count - (base_number : ℚ) else latest_count)
      (base_number : ℚ) with
  | .error s => .error s
  | .ok q =>
    match pyDiv (if metric = "主日" then avg_count - (base_number : ℚ) else avg_count)
        (base_number : ℚ) with
    | .error s => .error s
    | .ok q2 =>
      .ok { latest_rate := if base_number > 0 then some (q * 100) else none
            avg_rate := if base_number > 0 then some (q2 * 100) else none
            latest_count := latest_count
            avg_count := avg_count }

/-- The metric loop of `calculate_rates`, an exception anywhere aborting the
whole computation (caught upstream as an error response). -/
def rateLoop (latest avg : String → ℚ) (base : ℤ) :
    List String → Except String (List (String × RateRecord))
  | [] => .ok []
  | m :: ms =>
    match rate_entry m (latest m) (avg m) base with
    | .error s => .error s
    | .ok entry =>
      match rateLoop latest avg base ms with
      | .error s => .error s
      | .ok rest => .ok ((m, entry) :: rest)

/-- Latest-week value of a metric: last series row, absent columns default to
the integer zero (`latest_data.get(metric, 0)`). -/
def latestOf (ts : TS) (m : String) : ℚ :=
  match ts.getLast? with
  | some p => (tsGet p.2 m).getD 0
  | none => 0

/-- All-time average of a metric column (`ts.mean()`), absent columns
defaulting to zero. -/
def avgOf (ts : TS) (m : String) : ℚ :=
  (ts.map (fun p => (tsGet p.2 m).getD 0)).sum / (ts.length : ℚ)

/-- Embedding of the rate computation of `calculate_rates`: an empty series
yields the empty rate mapping; otherwise the four tracked metrics are
processed in order with the eager formulas. -/
def calculate_rates_core (ts : TS) (base : ℤ) :
    Except String (List (String × RateRecord)) :=
  if ts.isEmpty then .ok []
  else rateLoop (latestOf ts) (avgOf ts) base METRICS

end PopulationAnalysis

deriving instance DecidableEq for Except

namespace PopulationAnalysis

/-! ### Concrete fixtures used by counterexamples and witnesses -/

/-- A minimal usable report table: one region column, one data row. -/
def tblA : RawTable := ⟨["大區"], [[CellValue.str "A"]]⟩

/-- A usable file whose name parses to 2024-01-07. -/
def fileA : FileEntry := ⟨"a2024年1月7日.xls", some tblA⟩

/-- The same content under a name that parses to 2024-01-14. -/
def fileA14 : FileEntry := ⟨"a2024年1月14日.xls", some tblA⟩

/-- The corpus row that aggregating `fileA` alone produces. -/
def rowA : Row :=
  { hall := .str "", region := .str "A", sub := .str "未分小區",
    week := some ⟨2024, 1, 7⟩, metrics := [] }

/-- A usable report table carrying the 主日 metric column. -/
def tblB : RawTable := ⟨["大區", "主日"], [[.str "A", .num 120]]⟩

/-- A usable file with the 主日 metric column, dated 2024-01-07. -/
def fileB : FileEntry := ⟨"a2024年1月7日.xls", some tblB⟩

/-- The corpus row that loading `fileB` produces. -/
def rowB : Row :=
  { hall := .str "", region := .str "A", sub := .str "未分小區",
    week := some ⟨2024, 1, 7⟩, metrics := [("主日", 120)] }

/-- Template of a filename embedding one date expression after a separator
glyph, used to state the general extraction property. -/
def dateTemplate (g : Char) (ys ms ds : List Char) : List Char :=
  "report".toList ++ g :: (ys ++ '年' :: (ms ++ '月' :: (ds ++ '日' :: ".xls".toList)))

/-- Whether a per-file read completed without raising (usable or skipped). -/
def readIsOk (x : Except String (Option (List Row))) : Bool :=
  match x with
  | .ok _ => true
  | .error _ => false

/-- Whether a per-file read produced a usable table. -/
def readIsUsable (x : Except String (Option (List Row))) : Bool :=
  match x with
  | .ok (some _) => true
  | _ => false

/-! ### Order lemmas -/

theorem Date.le_total (a b : Date) : a.le b = true ∨ b.le a = true := by
  simp only [Date.le, decide_eq_true_eq]
  omega

theorem Date.le_trans {a b c : Date} (h1 : a.le b = true) (h2 : b.le c = true) :
    a.le c = true := by
  simp only [Date.le, decide_eq_true_eq] at *
  omega

theorem weekLe_total (a b : Option Date) : weekLe a b = true ∨ weekLe b a = true := by
  cases a with
  | none => cases b with
    | none => exact Or.inl rfl
    | some d => exact Or.inr rfl
  | some d => cases b with
    | none => exact Or.inl rfl
    | some e => exact Date.le_total d e

theorem weekLe_trans {a b c : Option Date} (h1 : weekLe a b = true)
    (h2 : weekLe b c = true) : weekLe a c = true := by
  cases a <;> cases b <;> cases c <;> simp_all [weekLe]
  exact Date.le_trans h1 h2

theorem rowLe_total (a b : Row) : rowLe a b = true ∨ rowLe b a = true :=
  weekLe_total a.week b.week

theorem rowLe_trans {a b c : Row} (h1 : rowLe a b = true) (h2 : rowLe b c = true) :
    rowLe a c = true :=
  weekLe_trans h1 h2

/-! ### Insertion-sort lemmas -/

theorem perm_insertBy {α : Type} (le : α → α → Bool) (a : α) (l : List α) :
    (insertBy le a l).Perm (a :: l) := by
  induction l with
  | nil => exact List.Perm.refl _
  | cons x xs ih =>
    by_cases h : le a x
    · simp [insertBy, h]
    · simp only [insertBy, h, if_neg, Bool.false_eq_true, not_false_eq_true, if_false]
      exact (ih.cons x).trans (List.Perm.swap a x xs)

theorem perm_sortBy {α : Type} (le : α → α → Bool) (l : List α) :
    (sortBy le l).Perm l := by
  induction l with
  | nil => exact List.Perm.refl _
  | cons x xs ih => exact (perm_insertBy le x (sortBy le xs)).trans (ih.cons x)

theorem mem_sortBy {α : Type} {le : α → α → Bool} {l : List α} {a : α} :
    a ∈ sortBy le l ↔ a ∈ l :=
  (perm_sortBy le l).mem_iff

theorem mem_insertBy {α : Type} {le : α → α → Bool} {l : List α} {a x : α} :
    x ∈ insertBy le a l ↔ x = a ∨ x ∈ l := by
  rw [(perm_insertBy le a l).mem_iff, List.mem_cons]

theorem pairwise_insertBy {α : Type} {le : α → α → Bool}
    (htot : ∀ a b, le a b = true ∨ le b a = true)
    (htr : ∀ {a b c}, le a b = true → le b c = true → le a c = true)
    {l : List α} (a : α) (hl : l.Pairwise (fun x y => le x y = true)) :
    (insertBy le a l).Pairwise (fun x y => le x y = true) := by
  induction l with
  | nil => simp [insertBy]
  | cons x xs ih =>
    rw [List.pairwise_cons] at hl
    obtain ⟨hx, hxs⟩ := hl
    by_cases h : le a x
    · simp only [insertBy, h, if_true]
      refine List.pairwise_cons.mpr ⟨?_, List.pairwise_cons.mpr ⟨hx, hxs⟩⟩
      intro y hy
      rcases List.mem_cons.mp hy with rfl | hy'
      · exact h
      · exact htr h (hx y hy')
    · simp only [insertBy, h, Bool.false_eq_true, if_false]
      refine List.pairwise_cons.mpr ⟨?_, ih hxs⟩
      intro y hy
      rcases mem_insertBy.mp hy with rfl | hy'
      · exact (htot _ x).resolve_left h
      · exact hx y hy'

theorem pairwise_sortBy {α : Type} {le : α → α → Bool}
    (htot : ∀ a b, le a b = true ∨ le b a = true)
    (htr : ∀ {a b c}, le a b = true → le b c = true → le a c = true)
    (l : List α) : (sortBy le l).Pairwise (fun x y => le x y = true) := by
  induction l with
  | nil => exact List.Pairwise.nil
  | cons x xs ih => exact pairwise_insertBy htot htr x ih

/-! ### Deduplication lemmas -/

theorem dedupByKeyAux_sublist (seen : List (CellValue × CellValue × CellValue × Option Date))
    (l : List Row) : (dedupByKeyAux seen l).Sublist l := by
  induction l generalizing seen with
  | nil => exact List.Sublist.refl _
  | cons r rest ih =>
    by_cases h : rowKey r ∈ seen
    · simp only [dedupByKeyAux, h, if_true]
      exact (ih seen).cons r
    · simp only [dedupByKeyAux, h, if_false]
      exact (ih (rowKey r :: seen)).cons₂ r

theorem mem_of_mem_dedupByKeyAux {seen l} {r : Row} (h : r ∈ dedupByKeyAux seen l) :
    r ∈ l :=
  (dedupByKeyAux_sublist seen l).subset h

theorem rowKey_not_mem_seen_of_mem_dedupByKeyAux {seen} {l : List Row} {r : Row}
    (h : r ∈ dedupByKeyAux seen l) : rowKey r ∉ seen := by
  induction l generalizing seen with
  | nil => simp [dedupByKeyAux] at h
  | cons x rest ih =>
    by_cases hx : rowKey x ∈ seen
    · simp only [dedupByKeyAux, hx, if_true] at h
      exact ih h
    · simp only [dedupByKeyAux, hx, if_false] at h
      rcases List.mem_cons.mp h with rfl | h'
      · exact hx
      · intro hmem
        exact ih h' (List.mem_cons_of_mem _ hmem)

theorem pairwise_rowKey_dedupByKeyAux (seen) (l : List Row) :
    (dedupByKeyAux seen l).Pairwise (fun a b => rowKey a ≠ rowKey b) := by
  induction l generalizing seen with
  | nil => exact List.Pairwise.nil
  | cons r rest ih =>
    by_cases h : rowKey r ∈ seen
    · simp only [dedupByKeyAux, h, if_true]
      exact ih seen
    · simp only [dedupByKeyAux, h, if_false]
      refine List.pairwise_cons.mpr ⟨?_, ih _⟩
      intro b hb hkey
      exact rowKey_not_mem_seen_of_mem_dedupByKeyAux hb (hkey ▸ List.mem_cons_self _ _)

theorem length_dedupByKeyAux (seen) (l : List Row) :
    (dedupByKeyAux seen l).length = ((l.map rowKey).toFinset \ seen.toFinset).card := by
  induction l generalizing seen with
  | nil => simp [dedupByKeyAux]
  | cons r rest ih =>
    by_cases h : rowKey r ∈ seen
    · have hseen : rowKey r ∈ seen.toFinset := List.mem_toFinset.mpr h
      simp only [dedupByKeyAux, h, if_true, List.map_cons, List.toFinset_cons]
      rw [Finset.insert_sdiff_of_mem _ hseen]
      exact ih seen
    · have hseen : rowKey r ∉ seen.toFinset := fun hc => h (List.mem_toFinset.mp hc)
      simp only [dedupByKeyAux, h, if_false, List.map_cons, List.toFinset_cons,
        List.length_cons]
      rw [ih (rowKey r :: seen)]
      rw [Finset.insert_sdiff_of_not_mem _ hseen]
      rw [List.toFinset_cons, Finset.sdiff_insert]
      set X := (rest.map rowKey).toFinset \ seen.toFinset with hX
      by_cases hmem : rowKey r ∈ X
      · rw [Finset.insert_eq_self.mpr hmem]
        exact (Finset.card_erase_add_one hmem).symm ▸ rfl
      · rw [Finset.erase_eq_of_not_mem hmem, Finset.card_insert_of_not_mem hmem]

theorem length_dedupByKey (l : List Row) :
    (dedupByKey l).length = (l.map rowKey).toFinset.card := by
  simpa [dedupByKey] using length_dedupByKeyAux [] l

/-! ### Loader and aggregator inversion lemmas -/

theorem read_single_report_week {e : FileEntry} {rs : List Row}
    (h : read_single_report e = .ok (some rs)) :
    ∃ d : Date, ∀ r ∈ rs, r.week = some d := by
  unfold read_single_report at h
  split at h
  · exact absurd h (by simp)
  · exact absurd h (by simp)
  · rename_i wk heq
    split at h
    · exact absurd h (by simp)
    · rename_i tbl heq2
      simp only [] at h
      split at h
      · rw [Except.ok.injEq, Option.some.injEq] at h
        refine ⟨wk, ?_⟩
        intro r hr
        rw [← h] at hr
        obtain ⟨raw, _, hraw⟩ := List.mem_map.mp hr
        rw [← hraw]
      · exact absurd h (by simp)

theorem readAll_ok_forall {files : List FileEntry} {results : List (Option (List Row))}
    (h : readAll files = .ok results) :
    ∀ rs ∈ results.filterMap id, ∃ e ∈ files, read_single_report e = .ok (some rs) := by
  induction files generalizing results with
  | nil =>
    unfold readAll at h
    cases h
    intro rs hrs
    simp at hrs
  | cons e es ih =>
    unfold readAll at h
    cases he : read_single_report e with
    | error s => rw [he] at h; exact absurd h (by simp)
    | ok r =>
      rw [he] at h
      cases hes : readAll es with
      | error s => rw [hes] at h; exact absurd h (by simp)
      | ok rest =>
        rw [hes] at h
        cases h
        intro rs hrs
        rw [List.filterMap_cons] at hrs
        cases r with
        | none =>
          obtain ⟨e', he', hrd⟩ := ih hes rs hrs
          exact ⟨e', List.mem_cons_of_mem e he', hrd⟩
        | some rs0 =>
          rcases List.mem_cons.mp hrs with rfl | hrs'
          · exact ⟨e, List.mem_cons_self e es, he⟩
          · obtain ⟨e', he', hrd⟩ := ih hes rs hrs'
            exact ⟨e', List.mem_cons_of_mem e he', hrd⟩

theorem readAll_all_none {l : List FileEntry}
    (h : ∀ e ∈ l, read_single_report e = .ok none) :
    readAll l = .ok (l.map fun _ => none) := by
  induction l with
  | nil => rfl
  | cons e es ih =>
    unfold readAll
    rw [h e (List.mem_cons_self e es), ih (fun e' he' => h e' (List.mem_cons_of_mem e he'))]
    rfl

theorem readAll_isOk_of_forall {l : List FileEntry}
    (h : ∀ e ∈ l, readIsOk (read_single_report e) = true) :
    ∃ res, readAll l = .ok res := by
  induction l with
  | nil => exact ⟨[], rfl⟩
  | cons e es ih =>
    obtain ⟨res, hres⟩ := ih (fun e' he' => h e' (List.mem_cons_of_mem e he'))
    have he := h e (List.mem_cons_self e es)
    cases hre : read_single_report e with
    | error s => rw [hre] at he; exact absurd he (by simp [readIsOk])
    | ok v =>
      refine ⟨v :: res, ?_⟩
      unfold readAll
      rw [hre, hres]

theorem mem_readAll {l : List FileEntry} {res : List (Option (List Row))}
    {e : FileEntry} {v : Option (List Row)} (h : readAll l = .ok res) (hel : e ∈ l)
    (hev : read_single_report e = .ok v) : v ∈ res := by
  induction l generalizing res with
  | nil => simp at hel
  | cons x xs ih =>
    unfold readAll at h
    cases hx : read_single_report x with
    | error s => rw [hx] at h; exact absurd h (by simp)
    | ok vx =>
      rw [hx] at h
      cases hxs : readAll xs with
      | error s => rw [hxs] at h; exact absurd h (by simp)
      | ok rest =>
        rw [hxs] at h
        cases h
        rcases List.mem_cons.mp hel with rfl | hel'
        · rw [hx] at hev
          cases hev
          exact List.mem_cons_self _ _
        · exact List.mem_cons_of_mem _ (ih hxs hel')

theorem readIsUsable_inv {x : Except String (Option (List Row))}
    (h : readIsUsable x = true) : ∃ rs, x = .ok (some rs) := by
  cases x with
  | error s => exact absurd h (by simp [readIsUsable])
  | ok v =>
    cases v with
    | none => exact absurd h (by simp [readIsUsable])
    | some rs => exact ⟨rs, rfl⟩

theorem aggregate_reports_ok_inv {dir : List FileEntry} {out : List Row}
    (h : aggregate_reports dir = .ok out) :
    ∃ results,
      readAll (sortFiles (dir.filter (fun e => containsSub e.name ".xls"))) = .ok results ∧
        out = dedupByKey (sortByWeek (_remove_summary_rows (results.filterMap id).flatten)) := by
  unfold aggregate_reports at h
  split at h
  · exact absurd h (by simp)
  · split at h
    · exact absurd h (by simp)
    · rename_i results heq
      split at h
      · exact absurd h (by simp)
      · cases h
        exact ⟨results, heq, rfl⟩

/-! ### C1 -/

/-- C1: every successfully aggregated corpus has pairwise-distinct identity
keys, no missing week-ending date, no surviving row any of whose identifying
values textually contains a total/subtotal keyword, and is sorted ascending
by week-ending date. -/
theorem aggregate_corpus_invariants {dir : List FileEntry} {out : List Row}
    (h : aggregate_reports dir = .ok out) :
    out.Pairwise (fun a b => rowKey a ≠ rowKey b) ∧
      (∀ r ∈ out, r.week ≠ none) ∧
      (∀ r ∈ out, _is_summary_text r.hall = false ∧ _is_summary_text r.region = false ∧
        _is_summary_text r.sub = false) ∧
      out.Pairwise (fun a b => weekLe a.week b.week = true) := by
  obtain ⟨results, hra, hout⟩ := aggregate_reports_ok_inv h
  subst hout
  refine ⟨pairwise_rowKey_dedupByKeyAux [] _, ?_, ?_, ?_⟩
  · intro r hr
    have hrRS := mem_sortBy.mp (mem_of_mem_dedupByKeyAux hr)
    have hrF := (List.mem_filter.mp hrRS).1
    obtain ⟨rs, hrsm, hrrs⟩ := List.mem_flatten.mp hrF
    obtain ⟨e, _, he⟩ := readAll_ok_forall hra rs hrsm
    obtain ⟨d, hd⟩ := read_single_report_week he
    rw [hd r hrrs]
    simp
  · intro r hr
    have hrRS := mem_sortBy.mp (mem_of_mem_dedupByKeyAux hr)
    have hp := (List.mem_filter.mp hrRS).2
    simp only [Bool.not_eq_true', Bool.or_eq_false_iff] at hp
    exact ⟨hp.1.1, hp.1.2, hp.2⟩
  · have hs : (sortByWeek (_remove_summary_rows
        (results.filterMap id).flatten)).Pairwise (fun a b => rowLe a b = true) :=
      pairwise_sortBy rowLe_total (fun h1 h2 => rowLe_trans h1 h2) _
    exact (hs.sublist (dedupByKeyAux_sublist [] _)).imp (fun hab => hab)

/-- Witness for C1 on a one-file directory. -/
theorem aggregate_corpus_invariants_witness :
    aggregate_reports [fileA] = .ok [rowA] ∧
      ([rowA].Pairwise (fun a b => rowKey a ≠ rowKey b) ∧
        (∀ r ∈ [rowA], r.week ≠ none) ∧
        (∀ r ∈ [rowA], _is_summary_text r.hall = false ∧ _is_summary_text r.region = false ∧
          _is_summary_text r.sub = false) ∧
        [rowA].Pairwise (fun a b => weekLe a.week b.week = true)) :=
  ⟨by decide, @aggregate_corpus_invariants [fileA] [rowA] (by decide)⟩

/-! ### C6 -/

/-- C6: the Corpus Aggregator fails fast with a descriptive error when no
spreadsheet-like file exists, and with a second descriptive error when files
exist but none is usable; each of the three skippable per-file failures
(unparseable filename date, unreadable format, missing region column) makes
the loader skip that file only, and a run in which every globbed file read
completes without raising, at least one of them usably, never aborts. -/
theorem aggregate_error_and_skip_behavior :
    (∀ dir : List FileEntry, dir.filter (fun e => containsSub e.name ".xls") = [] →
      aggregate_reports dir = .error "在資料夾中找不到報表檔案") ∧
      (∀ dir : List FileEntry, dir.filter (fun e => containsSub e.name ".xls") ≠ [] →
        (∀ e ∈ dir, containsSub e.name ".xls" = true → read_single_report e = .ok none) →
        aggregate_reports dir = .error "沒有任何可用的報表資料。") ∧
      (∀ e : FileEntry,
        (parse_week_end_date_from_filename e.name = .ok none →
          read_single_report e = .ok none) ∧
        (∀ d : Date, parse_week_end_date_from_filename e.name = .ok (some d) →
          e.content = none → read_single_report e = .ok none) ∧
        (∀ (d : Date) (tbl : RawTable), parse_week_end_date_from_filename e.name = .ok (some d) →
          e.content = some tbl → "大區" ∉ cleanHeader tbl → read_single_report e = .ok none)) ∧
      (∀ dir : List FileEntry,
        (∀ e ∈ dir, containsSub e.name ".xls" = true →
          readIsOk (read_single_report e) = true) →
        (∃ e ∈ dir, containsSub e.name ".xls" = true ∧
          readIsUsable (read_single_report e) = true) →
        ∃ out, aggregate_reports dir = .ok out) := by
  refine ⟨?_, ?_, ?_, ?_⟩
  · intro dir h
    simp [aggregate_reports, h, sortFiles, sortBy]
  · intro dir hne hall
    have hfe : ∀ e ∈ sortFiles (dir.filter (fun e => containsSub e.name ".xls")),
        read_single_report e = .ok none := by
      intro e he
      have hm := List.mem_filter.mp (mem_sortBy.mp he)
      exact hall e hm.1 hm.2
    have hnonempty : (sortFiles (dir.filter (fun e => containsSub e.name ".xls"))).isEmpty
        = false := by
      rw [List.isEmpty_eq_false]
      intro hnil
      have hp : (sortFiles (dir.filter (fun e => containsSub e.name ".xls"))).Perm
          (dir.filter (fun e => containsSub e.name ".xls")) := perm_sortBy fileLe _
      rw [hnil] at hp
      exact hne hp.symm.eq_nil
    unfold aggregate_reports
    rw [hnonempty]
    simp only [Bool.false_eq_true, if_false]
    rw [readAll_all_none hfe]
    simp [List.filterMap_map]
  · intro e
    refine ⟨?_, ?_, ?_⟩
    · intro h
      simp [read_single_report, h]
    · intro d h1 h2
      simp [read_single_report, h1, h2]
    · intro d tbl h1 h2 h3
      simp [read_single_report, h1, h2, h3]
  · intro dir hok hex
    obtain ⟨e, he, hx, hu⟩ := hex
    have hfilesok : ∀ e' ∈ sortFiles (dir.filter (fun e => containsSub e.name ".xls")),
        readIsOk (read_single_report e') = true := by
      intro e' he'
      have hm := List.mem_filter.mp (mem_sortBy.mp he')
      exact hok e' hm.1 hm.2
    obtain ⟨res, hres⟩ := readAll_isOk_of_forall hfilesok
    obtain ⟨rs, hrs⟩ := readIsUsable_inv hu
    have hef : e ∈ sortFiles (dir.filter (fun e => containsSub e.name ".xls")) :=
      mem_sortBy.mpr (List.mem_filter.mpr ⟨he, hx⟩)
    have hmem : some rs ∈ res := mem_readAll hres hef hrs
    have hcomb : rs ∈ res.filterMap id := List.mem_filterMap.mpr ⟨some rs, hmem, rfl⟩
    have hnonempty : (sortFiles (dir.filter (fun e => containsSub e.name ".xls"))).isEmpty
        = false := by
      rw [List.isEmpty_eq_false]
      intro hnil
      rw [hnil] at hef
      simp at hef
    have hcne : (res.filterMap id).isEmpty = false := by
      rw [List.isEmpty_eq_false]
      intro hnil
      rw [hnil] at hcomb
      simp at hcomb
    unfold aggregate_reports
    rw [hnonempty]
    simp only [Bool.false_eq_true, if_false]
    rw [hres]
    simp only [hcne, Bool.false_eq_true, if_false]
    exact ⟨_, rfl⟩

/-- Witness for C6, exercising all four components on concrete directories:
a directory with no spreadsheet-like file, a directory whose only file has no
filename date, the three skip conditions, and a directory mixing one usable
file with one skipped file. -/
theorem aggregate_error_and_skip_behavior_witness :
    aggregate_reports [⟨"notes.txt", none⟩] = .error "在資料夾中找不到報表檔案" ∧
      aggregate_reports [⟨"nodate.xls", some tblA⟩] = .error "沒有任何可用的報表資料。" ∧
      read_single_report ⟨"nodate.xls", some tblA⟩ = .ok none ∧
      read_single_report ⟨"a2024年1月7日.xls", none⟩ = .ok none ∧
      read_single_report ⟨"a2024年1月7日.xls", some ⟨["欄"], [[.null]]⟩⟩ = .ok none ∧
      (∃ out, aggregate_reports [fileA, ⟨"nodate.xls", some tblA⟩] = .ok out) :=
  ⟨aggregate_error_and_skip_behavior.1 [⟨"notes.txt", none⟩] (by decide),
    aggregate_error_and_skip_behavior.2.1 [⟨"nodate.xls", some tblA⟩] (by decide) (by decide),
    (aggregate_error_and_skip_behavior.2.2.1 ⟨"nodate.xls", some tblA⟩).1 (by decide),
    (aggregate_error_and_skip_behavior.2.2.1 ⟨"a2024年1月7日.xls", none⟩).2.1
      ⟨2024, 1, 7⟩ (by decide) (by decide),
    (aggregate_error_and_skip_behavior.2.2.1 ⟨"a2024年1月7日.xls", some ⟨["欄"], [[.null]]⟩⟩).2.2
      ⟨2024, 1, 7⟩ ⟨["欄"], [[.null]]⟩ (by decide) (by decide) (by decide),
    aggregate_error_and_skip_behavior.2.2.2 [fileA, ⟨"nodate.xls", some tblA⟩]
      (by decide) (by decide)⟩

/-! ### C5, amended -/

theorem read_single_report_congr {e1 e2 : FileEntry}
    (hp : parse_week_end_date_from_filename e1.name = parse_week_end_date_from_filename e2.name)
    (hc : e1.content = e2.content) : read_single_report e1 = read_single_report e2 := by
  unfold read_single_report
  rw [hp, hc]

theorem dedup_sort_length (l : List Row) :
    (dedupByKey (sortByWeek l)).length = (l.map rowKey).toFinset.card := by
  rw [length_dedupByKey]
  congr 1
  have hp : (sortByWeek l).Perm l := perm_sortBy rowLe l
  exact List.toFinset_eq_of_perm _ _ (hp.map rowKey)

/-- C5 (amended): aggregating two identically-contented copies of a usable
file yields the same row count as aggregating one copy, provided both
filenames parse to the same week-ending date — with different dates the two
copies stamp different weeks and both rows survive deduplication. -/
theorem aggregate_same_week_copies_idempotent {e1 e2 : FileEntry} {d : Date} {rs : List Row}
    (hx1 : containsSub e1.name ".xls" = true) (hx2 : containsSub e2.name ".xls" = true)
    (hc : e1.content = e2.content)
    (hp1 : parse_week_end_date_from_filename e1.name = .ok (some d))
    (hp2 : parse_week_end_date_from_filename e2.name = .ok (some d))
    (hr1 : read_single_report e1 = .ok (some rs)) :
    ∃ out1 out2, aggregate_reports [e1] = .ok out1 ∧ aggregate_reports [e1, e2] = .ok out2 ∧
      out1.length = out2.length := by
  have hr2 : read_single_report e2 = .ok (some rs) := by
    rw [← read_single_report_congr (hp1.trans hp2.symm) hc]
    exact hr1
  have ha1 : aggregate_reports [e1]
      = .ok (dedupByKey (sortByWeek (_remove_summary_rows rs))) := by
    unfold aggregate_reports
    have hfilter1 : ([e1].filter (fun e => containsSub e.name ".xls")) = [e1] := by
      simp [hx1]
    rw [hfilter1]
    simp [sortFiles, sortBy, insertBy, readAll, hr1]
  have ha2 : aggregate_reports [e1, e2]
      = .ok (dedupByKey (sortByWeek (_remove_summary_rows (rs ++ rs)))) := by
    unfold aggregate_reports
    have hfilter2 : ([e1, e2].filter (fun e => containsSub e.name ".xls")) = [e1, e2] := by
      simp [hx1, hx2]
    rw [hfilter2]
    by_cases hle : fileLe e1 e2
    · simp [sortFiles, sortBy, insertBy, hle, readAll, hr1, hr2]
    · simp [sortFiles, sortBy, insertBy, hle, readAll, hr1, hr2]
  refine ⟨_, _, ha1, ha2, ?_⟩
  rw [dedup_sort_length, dedup_sort_length]
  have hsplit : _remove_summary_rows (rs ++ rs)
      = _remove_summary_rows rs ++ _remove_summary_rows rs := by
    unfold _remove_summary_rows
    exact List.filter_append _ _
  rw [hsplit, List.map_append, List.toFinset_append, Finset.union_self]

/-- Witness for C5 on two same-date copies of `fileA`. -/
theorem aggregate_same_week_copies_idempotent_witness :
    ∃ out1 out2, aggregate_reports [fileA] = .ok out1 ∧
      aggregate_reports [fileA, ⟨"b2024年1月7日.xls", some tblA⟩] = .ok out2 ∧
      out1.length = out2.length :=
  @aggregate_same_week_copies_idempotent fileA ⟨"b2024年1月7日.xls", some tblA⟩
    ⟨2024, 1, 7⟩ [rowA] (by decide) (by decide) (by decide) (by decide) (by decide) (by decide)

/-! ### C7, amended -/

theorem find?_map_keyed {α β : Type} [DecidableEq α] (cols : List α) (g : α → β) (m : α)
    (hm : m ∈ cols) :
    (cols.map (fun c => (c, g c))).find? (fun p => p.1 = m) = some (m, g m) := by
  induction cols with
  | nil => simp at hm
  | cons c cs ih =>
    by_cases hc : c = m
    · subst hc
      simp [List.find?]
    · rcases List.mem_cons.mp hm with rfl | hm'
      · exact absurd rfl hc
      · simp only [List.map_cons, List.find?]
        rw [decide_eq_false hc]
        exact ih hm'

theorem find?_map_keyed_none {α β : Type} [DecidableEq α] (cols : List α) (g : α → β) (m : α)
    (hm : m ∉ cols) :
    (cols.map (fun c => (c, g c))).find? (fun p => p.1 = m) = none := by
  induction cols with
  | nil => rfl
  | cons c cs ih =>
    have hc : c ≠ m := fun h => hm (h ▸ List.mem_cons_self c cs)
    simp only [List.map_cons, List.find?]
    rw [decide_eq_false hc]
    exact ih (fun h => hm (List.mem_cons_of_mem c h))

/-- C7 (amended): a metric cell of a produced Report Row is always a defined
number — unparseable and missing source values are mapped to zero by the
coercion, and every one of the eleven metric columns present in the source
file is present, with a numeric value, in every produced row. (Parseable
negative or fractional source values are stored as they are, so the stored
value need not be a non-negative integer.) -/
theorem loader_metric_values_defined :
    (∀ v : CellValue, to_numeric_coerce v = none → coerceCell v = 0) ∧
      (∀ (e : FileEntry) (tbl : RawTable) (rs : List Row),
        e.content = some tbl → read_single_report e = .ok (some rs) →
        ∀ r ∈ rs, ∀ m ∈ NUMERIC_COLUMNS_CANDIDATES, m ∈ cleanHeader tbl →
          ∃ q : ℚ, r.metric m = some q) := by
  refine ⟨?_, ?_⟩
  · intro v h
    unfold coerceCell
    rw [h]
    rfl
  · intro e tbl rs hct h r hr m hmc hmh
    unfold read_single_report at h
    split at h
    · exact absurd h (by simp)
    · exact absurd h (by simp)
    · rename_i wk heq
      split at h
      · exact absurd h (by simp)
      · rename_i tbl2 heq2
        have htbl : tbl = tbl2 := by
          rw [hct] at heq2
          exact (Option.some.injEq _ _).mp heq2
        subst htbl
        simp only [] at h
        split at h
        · rw [Except.ok.injEq, Option.some.injEq] at h
          rw [← h] at hr
          obtain ⟨raw, _, hraw⟩ := List.mem_map.mp hr
          rw [← hraw]
          refine ⟨coerceCell (cellOf (cleanHeader tbl) raw m), ?_⟩
          show (Row.metric _ m) = _
          unfold Row.metric
          have hmm : m ∈ NUMERIC_COLUMNS_CANDIDATES.filter (fun c => c ∈ cleanHeader tbl) :=
            List.mem_filter.mpr ⟨hmc, by simpa using hmh⟩
          have := find?_map_keyed (NUMERIC_COLUMNS_CANDIDATES.filter (fun c => c ∈ cleanHeader tbl))
            (fun c => coerceCell (cellOf (cleanHeader tbl) raw c)) m hmm
          simp only [this]
          rfl
        · exact absurd h (by simp)

/-- Witness for C7 on a file carrying the 主日 metric column. -/
theorem loader_metric_values_defined_witness :
    ∃ q : ℚ, Row.metric rowB "主日" = some q :=
  loader_metric_values_defined.2 fileB tblB [rowB]
    (by decide) (by decide) rowB (by decide) "主日" (by decide) (by decide)

/-! ### C10 -/

/-- C10: the heap-level embedding shows `build_region_timeseries` leaves its
input dataframe unchanged: the scope filter and `groupby` allocate fresh
objects and the in-place derived-column assignment mutates only the freshly
allocated series object, so the heap cell of the input is the same after the
call. -/
theorem build_region_timeseries_heap_frame (h : Heap) (input : Nat) (region : String)
    (hin : input < h.length) :
    ((build_region_timeseries_heap h input region).1)[input]? = h[input]? := by
  simp only [build_region_timeseries_heap]
  split
  · rw [List.getElem?_append_left (by simp [hin]; omega),
      List.getElem?_append_left hin]
  · have hlen : input < (h ++ [PyObj.df (scopeRows (match h[input]?.getD (.df [])
        with | .df rs => rs | .ts _ => []) region)]).length := by
      simp
      omega
    rw [List.getElem?_set_ne (by simp; omega)]
    rw [List.getElem?_append_left (by simp; omega),
      List.getElem?_append_left hin]

/-- Witness for C10 on a one-object heap. -/
theorem build_region_timeseries_heap_frame_witness :
    0 < ([PyObj.df [rowA]] : Heap).length ∧
      ((build_region_timeseries_heap [PyObj.df [rowA]] 0 "總計").1)[0]?
        = ([PyObj.df [rowA]] : Heap)[0]? :=
  ⟨by decide, build_region_timeseries_heap_frame [PyObj.df [rowA]] 0 "總計" (by decide)⟩

/-! ### C4, amended -/

theorem sumMetric_rowsOfWeek (l : List Row) (w : Date) (m : String) :
    sumMetric (rowsOfWeek l w) m = (l.map (contrib w m)).sum := by
  induction l with
  | nil => rfl
  | cons r rest ih =>
    unfold rowsOfWeek at ih ⊢
    rw [List.filter_cons]
    by_cases hw : r.week = some w
    · rw [if_pos (by simpa using hw)]
      unfold sumMetric at ih ⊢
      simp only [List.map_cons, List.sum_cons]
      rw [ih]
      show (r.metric m).getD 0 + _ = contrib w m r + _
      unfold contrib
      rw [if_pos hw]
    · rw [if_neg (by simpa using hw)]
      simp only [List.map_cons, List.sum_cons]
      rw [ih]
      show _ = contrib w m r + _
      unfold contrib
      rw [if_neg hw, zero_add]

theorem mem_weeksOf {l : List Row} {w : Date} :
    w ∈ weeksOf l ↔ ∃ r ∈ l, r.week = some w := by
  unfold weeksOf sortDates
  rw [mem_sortBy, List.mem_dedup, List.mem_filterMap]

theorem find?_fst_map (ts : TS) (g : List (String × ℚ) → List (String × ℚ)) (w : Date) :
    (ts.map (fun p => (p.1, g p.2))).find? (fun p => p.1 = w)
      = (ts.find? (fun p => p.1 = w)).map (fun p => (p.1, g p.2)) := by
  induction ts with
  | nil => rfl
  | cons p ps ih =>
    simp only [List.map_cons, List.find?]
    by_cases hp : p.1 = w
    · simp only [decide_eq_true hp]
      rfl
    · simp only [decide_eq_false hp]
      exact ih

theorem tsVal_addTotalVisits (cols : List String) (ts : TS) (w : Date) (m : String)
    (hm : m ≠ "總出訪") : tsVal (addTotalVisits cols ts) w m = tsVal ts w m := by
  unfold addTotalVisits
  by_cases hvc : ("福音出訪" ∈ cols ∨ "家聚會出訪" ∈ cols)
  · rw [if_pos hvc]
    unfold tsVal
    rw [find?_fst_map ts (fun vals =>
      vals ++ [("總出訪", (tsGet vals "福音出訪").getD 0 + (tsGet vals "家聚會出訪").getD 0)]) w]
    cases hf : ts.find? (fun p => p.1 = w) with
    | none => rfl
    | some p =>
      simp only [Option.map_some']
      unfold tsGet
      rw [List.find?_append]
      cases hg : p.2.find? (fun q => q.1 = m) with
      | some q => rfl
      | none =>
        have hone : ∀ x : ℚ,
            List.find? (fun q => q.1 = m) [(("總出訪" : String), x)] = none := by
          intro x
          simp only [List.find?]
          rw [decide_eq_false (fun h => hm h.symm)]
        rw [hone]
        rfl
  · rw [if_neg hvc]

theorem sumMetric_eq_zero {l : List Row} {m : String} (h : ∀ r ∈ l, r.metric m = none) :
    sumMetric l m = 0 := by
  unfold sumMetric
  apply List.sum_eq_zero
  intro x hx
  obtain ⟨r, hr, hxe⟩ := List.mem_map.mp hx
  rw [← hxe, h r hr]
  rfl

theorem tsVal_weeksMap (df : List Row) (w : Date) (m : String)
    (hm : m ∈ NUMERIC_COLUMNS_CANDIDATES) :
    tsVal ((weeksOf df).map (fun w' => (w', (presentCols df).map
        (fun m' => (m', sumMetric (rowsOfWeek df w') m'))))) w m
      = sumMetric (rowsOfWeek df w) m := by
  unfold tsVal
  by_cases hw : w ∈ weeksOf df
  · rw [find?_map_keyed _ _ w hw]
    show (tsGet _ m).getD 0 = _
    unfold tsGet
    by_cases hmc : m ∈ presentCols df
    · rw [find?_map_keyed _ _ m hmc]
      rfl
    · rw [find?_map_keyed_none _ _ m hmc]
      have hz : sumMetric (rowsOfWeek df w) m = 0 := by
        apply sumMetric_eq_zero
        intro r hr
        have hrdf : r ∈ df := (List.mem_filter.mp hr).1
        by_contra hne
        apply hmc
        unfold presentCols
        refine List.mem_filter.mpr ⟨hm, ?_⟩
        rw [List.any_eq_true]
        refine ⟨r, hrdf, ?_⟩
        rw [Option.isSome_iff_ne_none]
        simpa using hne
      rw [hz]
      rfl
  · rw [find?_map_keyed_none _ _ w hw]
    have hnil : rowsOfWeek df w = [] := by
      unfold rowsOfWeek
      rw [List.filter_eq_nil_iff]
      intro r hr hc
      exact hw (mem_weeksOf.mpr ⟨r, hr, by simpa using hc⟩)
    rw [hnil]
    rfl

theorem tsVal_build (rows : List Row) (scope : String) (w : Date) (m : String)
    (hm : m ∈ NUMERIC_COLUMNS_CANDIDATES) :
    tsVal (build_region_timeseries rows scope) w m
      = sumMetric (rowsOfWeek (scopeRows rows scope) w) m := by
  have hnm : ("總出訪" : String) ∉ NUMERIC_COLUMNS_CANDIDATES := by decide
  have hmv : m ≠ "總出訪" := fun h => hnm (h ▸ hm)
  unfold build_region_timeseries
  by_cases hE : (scopeRows rows scope).isEmpty
  · rw [if_pos hE, List.isEmpty_iff.mp hE]
    rfl
  · rw [if_neg hE, tsVal_addTotalVisits _ _ _ _ hmv, tsVal_weeksMap _ _ _ hm]

theorem sum_map_ite_eq (names : List String) (s : String) (c : ℚ) (hnd : names.Nodup)
    (hs : s ∈ names) : (names.map (fun n => if s = n then c else 0)).sum = c := by
  induction names with
  | nil => simp at hs
  | cons n ns ih =>
    simp only [List.map_cons, List.sum_cons]
    rcases List.mem_cons.mp hs with rfl | hs'
    · have hz : ∀ x ∈ ns.map (fun n' => if s = n' then c else 0), x = 0 := by
        intro x hx
        obtain ⟨n', hn', hx'⟩ := List.mem_map.mp hx
        rw [← hx', if_neg]
        intro heq
        exact (List.nodup_cons.mp hnd).1 (heq ▸ hn')
      rw [if_pos rfl, List.sum_eq_zero hz, add_zero]
    · have hneq : s ≠ n := by
        intro heq
        exact (List.nodup_cons.mp hnd).1 (heq ▸ hs')
      rw [if_neg hneq, ih (List.nodup_cons.mp hnd).2 hs', zero_add]

theorem partition_contrib_sum (rows : List Row) (names : List String) (w : Date) (m : String)
    (hnd : names.Nodup)
    (hcov : ∀ r ∈ rows, ∃ s, r.region = CellValue.str s ∧ s ∈ names) :
    (names.map (fun n =>
        ((rows.filter (fun r => r.region = CellValue.str n)).map (contrib w m)).sum)).sum
      = (rows.map (contrib w m)).sum := by
  induction rows with
  | nil => simp
  | cons r rest ih =>
    obtain ⟨s, hsr, hsn⟩ := hcov r (List.mem_cons_self r rest)
    have hcov' : ∀ r' ∈ rest, ∃ s', r'.region = CellValue.str s' ∧ s' ∈ names :=
      fun r' hr' => hcov r' (List.mem_cons_of_mem r hr')
    have hterm : ∀ n ∈ names,
        (((r :: rest).filter (fun r' => r'.region = CellValue.str n)).map (contrib w m)).sum
          = (if s = n then contrib w m r else 0)
            + ((rest.filter (fun r' => r'.region = CellValue.str n)).map (contrib w m)).sum := by
      intro n hn
      rw [List.filter_cons]
      by_cases hc : s = n
      · subst hc
        rw [if_pos (by simpa using hsr), if_pos rfl]
        simp [List.sum_cons]
      · have : ¬(r.region = CellValue.str n) := by
          rw [hsr]
          simp [hc]
        rw [if_neg (by simpa using this), if_neg hc, zero_add]
    calc (names.map (fun n =>
            (((r :: rest).filter (fun r' => r'.region = CellValue.str n)).map
              (contrib w m)).sum)).sum
        = (names.map (fun n => (if s = n then contrib w m r else 0)
            + ((rest.filter (fun r' => r'.region = CellValue.str n)).map
              (contrib w m)).sum)).sum := by
          rw [List.map_congr_left hterm]
      _ = (names.map (fun n => if s = n then contrib w m r else 0)).sum
            + (names.map (fun n =>
              ((rest.filter (fun r' => r'.region = CellValue.str n)).map
                (contrib w m)).sum)).sum := List.sum_map_add
      _ = contrib w m r + (rest.map (contrib w m)).sum := by
          rw [sum_map_ite_eq names s _ hnd hsn, ih hcov']
      _ = ((r :: rest).map (contrib w m)).sum := by
          rw [List.map_cons, List.sum_cons]

theorem mem_regionNames {rows : List Row} {s : String} :
    s ∈ regionNames rows ↔ ∃ r ∈ rows, r.region = CellValue.str s := by
  unfold regionNames
  rw [List.mem_dedup, List.mem_filterMap]
  constructor
  · rintro ⟨r, hr, hs⟩
    refine ⟨r, hr, ?_⟩
    cases hreg : r.region <;> rw [hreg] at hs <;> simp_all
  · rintro ⟨r, hr, hs⟩
    exact ⟨r, hr, by rw [hs]⟩

/-- C4 (amended): provided every row of the corpus carries a string region
value none of which is summary text — actual aggregated corpora satisfy the
summary-text part, but rows with a missing region value are possible and
break the claim — the all-scope (總計) time series equals, week by week and
metric by metric, the sum over any partition of the region names of the
per-region time series. -/
theorem timeseries_partition_sum (rows : List Row) (P : List (List String)) (w : Date)
    (m : String)
    (h1 : ∀ r ∈ rows, r.region.isStr = true)
    (h2 : ∀ r ∈ rows, _is_summary_text r.region = false)
    (hP : P.flatten.Perm (regionNames rows))
    (hm : m ∈ NUMERIC_COLUMNS_CANDIDATES) :
    tsVal (build_region_timeseries rows "總計") w m
      = (P.map (fun part => (part.map (fun n =>
          tsVal (build_region_timeseries rows n) w m)).sum)).sum := by
  have hname : ∀ n ∈ P.flatten, n ≠ "總計" := by
    intro n hn heq
    obtain ⟨r, hr, hreg⟩ := mem_regionNames.mp (hP.subset hn)
    have h2r := h2 r hr
    rw [hreg, heq] at h2r
    exact absurd h2r (by decide)
  have hstep : ∀ part ∈ P,
      (part.map (fun n => tsVal (build_region_timeseries rows n) w m)).sum
        = (part.map (fun n =>
            ((rows.filter (fun r => r.region = CellValue.str n)).map (contrib w m)).sum)).sum := by
    intro part hpart
    congr 1
    refine List.map_congr_left ?_
    intro n hn
    have hsent : n ≠ "總計" := hname n (List.mem_flatten.mpr ⟨part, hpart, hn⟩)
    rw [tsVal_build rows n w m hm]
    unfold scopeRows
    rw [if_neg hsent, sumMetric_rowsOfWeek]
  rw [tsVal_build rows "總計" w m hm]
  unfold scopeRows
  rw [if_pos rfl, sumMetric_rowsOfWeek]
  rw [List.map_congr_left hstep]
  have hflat : (P.flatten.map (fun n =>
      ((rows.filter (fun r => r.region = CellValue.str n)).map (contrib w m)).sum)).sum
      = (P.map (fun part => (part.map (fun n =>
          ((rows.filter (fun r => r.region = CellValue.str n)).map (contrib w m)).sum)).sum)).sum := by
    rw [List.map_flatten, List.sum_flatten, List.map_map]
    rfl
  rw [← hflat]
  have hnd : P.flatten.Nodup := hP.nodup_iff.mpr (List.nodup_dedup _)
  have hcov : ∀ r ∈ rows, ∃ s, r.region = CellValue.str s ∧ s ∈ P.flatten := by
    intro r hr
    cases hreg : r.region with
    | str s => exact ⟨s, rfl, hP.mem_iff.mpr (mem_regionNames.mpr ⟨r, hr, hreg⟩)⟩
    | null =>
      have := h1 r hr
      rw [hreg] at this
      exact absurd this (by simp [CellValue.isStr])
    | num q =>
      have := h1 r hr
      rw [hreg] at this
      exact absurd this (by simp [CellValue.isStr])
  rw [partition_contrib_sum rows P.flatten w m hnd hcov]

/-- Witness for C4 on a two-region corpus and the partition of its region
names into two singleton parts. -/
theorem timeseries_partition_sum_witness :
    tsVal (build_region_timeseries
        [rowA, ⟨.str "", .str "B", .str "未分小區", some ⟨2024, 1, 7⟩, [("主日", 7)]⟩] "總計")
        ⟨2024, 1, 7⟩ "主日"
      = ([["A"], ["B"]].map (fun part => (part.map (fun n =>
          tsVal (build_region_timeseries
            [rowA, ⟨.str "", .str "B", .str "未分小區", some ⟨2024, 1, 7⟩, [("主日", 7)]⟩] n)
            ⟨2024, 1, 7⟩ "主日")).sum)).sum :=
  timeseries_partition_sum
    [rowA, ⟨.str "", .str "B", .str "未分小區", some ⟨2024, 1, 7⟩, [("主日", 7)]⟩]
    [["A"], ["B"]] ⟨2024, 1, 7⟩ "主日"
    (by decide) (by decide) (by decide) (by decide)

/-! ### C3, amended -/

theorem isDig_ne {c ch : Char} (hc : isDig c = true) (hch : isDig ch = false) : c ≠ ch := by
  intro h
  rw [h, hch] at hc
  cases hc

theorem takeWhile_all {α : Type} {p : α → Bool} {l : List α} (h : ∀ x ∈ l, p x = true) :
    l.takeWhile p = l := by
  induction l with
  | nil => rfl
  | cons x xs ih =>
    rw [List.takeWhile_cons, h x (List.mem_cons_self x xs)]
    rw [ih (fun y hy => h y (List.mem_cons_of_mem x hy))]
    simp

theorem basenameChars_no_slash {l : List Char} (h : ∀ c ∈ l, c ≠ '/') :
    basenameChars l = l := by
  unfold basenameChars
  rw [takeWhile_all, List.reverse_reverse]
  intro c hc
  rw [decide_eq_true (h c (List.mem_reverse.mp hc))]

theorem searchPrefixed_none {g : Char} {l : List Char} (h : ∀ c ∈ l, c ≠ g) :
    searchPrefixed g l = none := by
  induction l with
  | nil => rfl
  | cons c rest ih =>
    unfold searchPrefixed
    rw [if_neg (h c (List.mem_cons_self c rest))]
    exact ih (fun c' hc' => h c' (List.mem_cons_of_mem c hc'))

theorem searchPrefixed_append {g : Char} {pre l : List Char} (h : ∀ c ∈ pre, c ≠ g) :
    searchPrefixed g (pre ++ l) = searchPrefixed g l := by
  induction pre with
  | nil => rfl
  | cons c rest ih =>
    rw [List.cons_append]
    unfold searchPrefixed
    rw [if_neg (h c (List.mem_cons_self c rest))]
    rw [ih (fun c' hc' => h c' (List.mem_cons_of_mem c hc'))]
    cases l with
    | nil => rfl
    | cons x xs => rfl

theorem searchPrefixed_cons_match {g : Char} {rest : List Char} {t : Nat × Nat × Nat}
    (h : matchYMD rest = some t) : searchPrefixed g (g :: rest) = some t := by
  unfold searchPrefixed
  rw [if_pos rfl, h]

theorem takeDigits_exact : ∀ {n : Nat} {ds rest : List Char}, ds.length = n →
    ds.all isDig = true → takeDigits n (ds ++ rest) = some (ds, rest)
  | 0, ds, rest, hlen, _ => by
    have hnil : ds = [] := List.length_eq_zero.mp hlen
    subst hnil
    rfl
  | n + 1, ds, rest, hlen, hdig => by
    cases ds with
    | nil => simp at hlen
    | cons c cs =>
      rw [List.all_cons, Bool.and_eq_true] at hdig
      rw [List.cons_append]
      show takeDigits (n + 1) (c :: (cs ++ rest)) = _
      unfold takeDigits
      rw [if_pos hdig.1]
      rw [takeDigits_exact (by simpa using hlen) hdig.2]

theorem matchOneTwoDigits_template {marker : Char} {ms tail : List Char}
    (hdig : ms.all isDig = true) (hlen : ms.length = 1 ∨ ms.length = 2)
    (hmk : isDig marker = false) :
    matchOneTwoDigits marker (ms ++ marker :: tail) = some (digitsVal ms, tail) := by
  rcases hlen with h1 | h2
  · obtain ⟨a, ha⟩ : ∃ a, ms = [a] := by
      cases ms with
      | nil => simp at h1
      | cons a t =>
        cases t with
        | nil => exact ⟨a, rfl⟩
        | cons b t' => simp at h1
    subst ha
    rw [List.all_cons, List.all_nil, Bool.and_eq_true] at hdig
    cases tail with
    | nil =>
      show matchOneTwoDigits marker [a, marker] = _
      simp only [matchOneTwoDigits]
      rw [if_pos ⟨hdig.1, trivial⟩]
    | cons t0 ts =>
      show matchOneTwoDigits marker (a :: marker :: t0 :: ts) = _
      simp only [matchOneTwoDigits]
      have hfalse : ¬(isDig a = true ∧ isDig marker = true ∧ t0 = marker) := by
        intro hcon
        rw [hmk] at hcon
        exact Bool.false_ne_true hcon.2.1
      rw [if_neg hfalse, if_pos ⟨hdig.1, trivial⟩]
  · obtain ⟨a, b, hab⟩ : ∃ a b, ms = [a, b] := by
      cases ms with
      | nil => simp at h2
      | cons a t =>
        cases t with
        | nil => simp at h2
        | cons b t' =>
          cases t' with
          | nil => exact ⟨a, b, rfl⟩
          | cons c t'' => simp at h2
    subst hab
    rw [List.all_cons, List.all_cons, List.all_nil, Bool.and_eq_true, Bool.and_eq_true] at hdig
    show matchOneTwoDigits marker (a :: b :: marker :: tail) = _
    simp only [matchOneTwoDigits]
    rw [if_pos ⟨hdig.1, hdig.2.1, trivial⟩]

theorem matchYMD_template {ys ms ds tail : List Char}
    (hy : ys.length = 4) (hyd : ys.all isDig = true)
    (hml : ms.length = 1 ∨ ms.length = 2) (hmd : ms.all isDig = true)
    (hdl : ds.length = 1 ∨ ds.length = 2) (hdd : ds.all isDig = true) :
    matchYMD (ys ++ '年' :: (ms ++ '月' :: (ds ++ '日' :: tail)))
      = some (digitsVal ys, digitsVal ms, digitsVal ds) := by
  unfold matchYMD
  simp only [takeDigits_exact hy hyd]
  rw [if_pos trivial]
  simp only [matchOneTwoDigits_template hmd hml (show isDig '月' = false by decide)]
  simp only [matchOneTwoDigits_template hdd hdl (show isDig '日' = false by decide)]

theorem dateTemplate_clean {g γ : Char} {ys ms ds : List Char}
    (hyd : ys.all isDig = true) (hmd : ms.all isDig = true) (hdd : ds.all isDig = true)
    (hγd : isDig γ = false)
    (hrep : ∀ c ∈ "report".toList, c ≠ γ) (hxls : ∀ c ∈ ".xls".toList, c ≠ γ)
    (hgy : g ≠ γ) (hyr : ('年' : Char) ≠ γ) (hmo : ('月' : Char) ≠ γ) (hdy : ('日' : Char) ≠ γ) :
    ∀ c ∈ dateTemplate g ys ms ds, c ≠ γ := by
  intro c hc
  unfold dateTemplate at hc
  rw [List.mem_append, List.mem_cons] at hc
  rcases hc with hrep' | rfl | hc
  · exact hrep c hrep'
  · exact hgy
  · rw [List.mem_append, List.mem_cons] at hc
    rcases hc with hys | rfl | hc
    · exact isDig_ne (List.all_eq_true.mp hyd c hys) hγd
    · exact hyr
    · rw [List.mem_append, List.mem_cons] at hc
      rcases hc with hms | rfl | hc
      · exact isDig_ne (List.all_eq_true.mp hmd c hms) hγd
      · exact hmo
      · rw [List.mem_append, List.mem_cons] at hc
        rcases hc with hds | rfl | hc
        · exact isDig_ne (List.all_eq_true.mp hdd c hds) hγd
        · exact hdy
        · exact hxls c hc

theorem searchDatePatterns_template {g : Char} {ys ms ds : List Char}
    (hg : g ∈ ['～', '-', '至', '到'])
    (hy : ys.length = 4) (hyd : ys.all isDig = true)
    (hml : ms.length = 1 ∨ ms.length = 2) (hmd : ms.all isDig = true)
    (hdl : ds.length = 1 ∨ ds.length = 2) (hdd : ds.all isDig = true) :
    searchDatePatterns (dateTemplate g ys ms ds)
      = some (digitsVal ys, digitsVal ms, digitsVal ds) := by
  have hmatch : matchYMD (ys ++ '年' :: (ms ++ '月' :: (ds ++ '日' :: ".xls".toList)))
      = some (digitsVal ys, digitsVal ms, digitsVal ds) :=
    matchYMD_template hy hyd hml hmd hdl hdd
  have hown : searchPrefixed g (dateTemplate g ys ms ds)
      = some (digitsVal ys, digitsVal ms, digitsVal ds) := by
    unfold dateTemplate
    rw [searchPrefixed_append (by
      intro c hc
      fin_cases hg <;> revert c hc <;> decide)]
    exact searchPrefixed_cons_match hmatch
  have hother : ∀ γ : Char, isDig γ = false → γ ∉ "report".toList → γ ∉ ".xls".toList →
      g ≠ γ → ('年' : Char) ≠ γ → ('月' : Char) ≠ γ → ('日' : Char) ≠ γ →
      searchPrefixed γ (dateTemplate g ys ms ds) = none := by
    intro γ hγd hγr hγx hgy hn hm hd
    exact searchPrefixed_none (dateTemplate_clean hyd hmd hdd hγd
      (fun c hc hcc => hγr (hcc ▸ hc)) (fun c hc hcc => hγx (hcc ▸ hc)) hgy hn hm hd)
  unfold searchDatePatterns
  fin_cases hg
  · rw [hown]
    rfl
  · rw [hother '～' (by decide) (by decide) (by decide) (by decide) (by decide) (by decide)
      (by decide)]
    rw [hown]
    rfl
  · rw [hother '～' (by decide) (by decide) (by decide) (by decide) (by decide) (by decide)
      (by decide)]
    rw [hother '-' (by decide) (by decide) (by decide) (by decide) (by decide) (by decide)
      (by decide)]
    rw [hown]
    rfl
  · rw [hother '～' (by decide) (by decide) (by decide) (by decide) (by decide) (by decide)
      (by decide)]
    rw [hother '-' (by decide) (by decide) (by decide) (by decide) (by decide) (by decide)
      (by decide)]
    rw [hother '至' (by decide) (by decide) (by decide) (by decide) (by decide) (by decide)
      (by decide)]
    rw [hown]
    rfl

/-- C3 (amended): when a date pattern matches, the Date Extractor returns
exactly the captured (year, month, day) — provided that triple forms a valid
in-range calendar date; on a matched but invalid triple the timestamp
constructor raises instead. The second component instantiates this for every
well-formed embedded date expression after any of the four separator glyphs;
the third confirms that a filename matching no pattern yields absence rather
than an exception. -/
theorem parse_returns_captured_date :
    (∀ (path : String) (y m d : Nat),
      searchDatePatterns (basenameChars path.toList) = some (y, m, d) →
      validTimestamp y m d = true →
      parse_week_end_date_from_filename path = .ok (some ⟨y, m, d⟩)) ∧
      (∀ (g : Char) (ys ms ds : List Char), g ∈ ['～', '-', '至', '到'] →
        ys.length = 4 → ys.all isDig = true →
        (ms.length = 1 ∨ ms.length = 2) → ms.all isDig = true →
        (ds.length = 1 ∨ ds.length = 2) → ds.all isDig = true →
        validTimestamp (digitsVal ys) (digitsVal ms) (digitsVal ds) = true →
        parse_week_end_date_from_filename (String.mk (dateTemplate g ys ms ds))
          = .ok (some ⟨digitsVal ys, digitsVal ms, digitsVal ds⟩)) ∧
      (∀ path : String, searchDatePatterns (basenameChars path.toList) = none →
        parse_week_end_date_from_filename path = .ok none) := by
  refine ⟨?_, ?_, ?_⟩
  · intro path y m d hs hv
    unfold parse_week_end_date_from_filename
    simp only [hs]
    unfold mkTimestamp
    rw [if_pos hv]
    rfl
  · intro g ys ms ds hg hy hyd hml hmd hdl hdd hv
    have hslash : ∀ c ∈ dateTemplate g ys ms ds, c ≠ '/' := by
      refine dateTemplate_clean hyd hmd hdd (by decide) (by decide) (by decide)
        ?_ (by decide) (by decide) (by decide)
      fin_cases hg <;> decide
    unfold parse_week_end_date_from_filename
    have htl : (String.mk (dateTemplate g ys ms ds)).toList = dateTemplate g ys ms ds := rfl
    rw [htl, basenameChars_no_slash hslash]
    simp only [searchDatePatterns_template hg hy hyd hml hmd hdl hdd]
    unfold mkTimestamp
    rw [if_pos hv]
    rfl
  · intro path hs
    unfold parse_week_end_date_from_filename
    simp only [hs]

/-- Witness for C3: a to-separator date expression for 2024-03-14. -/
theorem parse_returns_captured_date_witness :
    parse_week_end_date_from_filename
        (String.mk (dateTemplate '至' ['2', '0', '2', '4'] ['3'] ['1', '4']))
      = .ok (some ⟨2024, 3, 14⟩) :=
  parse_returns_captured_date.2.1 '至' ['2', '0', '2', '4'] ['3'] ['1', '4']
    (by decide) (by decide) (by decide) (by decide) (by decide) (by decide) (by decide)
    (by decide)

/-! ### C9 -/

/-- C9: on a filename holding a date range joined by a recognized separator
glyph, the Date Extractor returns the end date of the range (the date after
`～`), because the separator-prefixed patterns are tried before the bare
pattern — even though the bare pattern would have found the earlier date. -/
theorem parse_range_filename_returns_end_date :
    parse_week_end_date_from_filename "週報2024年1月1日～2024年1月7日.xls"
        = .ok (some ⟨2024, 1, 7⟩) ∧
      searchBare "週報2024年1月1日～2024年1月7日.xls".toList = some (2024, 1, 1) ∧
      (⟨2024, 1, 7⟩ : Date) ≠ ⟨2024, 1, 1⟩ := by
  refine ⟨by decide, by decide, by decide⟩

/-! ### C8 -/

/-- C8: the summary-row predicate classifies every non-string value (missing
or numeric) as non-summary, so a row whose identifying values are all
non-strings always survives summary-row filtering. -/
theorem summary_filter_keeps_nonstring_rows :
    (∀ v : CellValue, (∀ s, v ≠ .str s) → _is_summary_text v = false) ∧
      (∀ (rows : List Row) (r : Row), r ∈ rows →
        (∀ s, r.hall ≠ .str s) → (∀ s, r.region ≠ .str s) → (∀ s, r.sub ≠ .str s) →
        r ∈ _remove_summary_rows rows) := by
  have hpred : ∀ v : CellValue, (∀ s, v ≠ .str s) → _is_summary_text v = false := by
    intro v hv
    cases v with
    | null => rfl
    | num q => rfl
    | str s => exact absurd rfl (hv s)
  refine ⟨hpred, ?_⟩
  intro rows r hr h1 h2 h3
  refine List.mem_filter.mpr ⟨hr, ?_⟩
  simp [hpred _ h1, hpred _ h2, hpred _ h3]

/-- Witness for C8 at a concrete row whose identifying values are a number,
a missing value and a number. -/
theorem summary_filter_keeps_nonstring_rows_witness :
    (⟨.num 1, .null, .num 2, some ⟨2024, 1, 7⟩, []⟩ : Row) ∈
      _remove_summary_rows [⟨.num 1, .null, .num 2, some ⟨2024, 1, 7⟩, []⟩] :=
  summary_filter_keeps_nonstring_rows.2
    [⟨.num 1, .null, .num 2, some ⟨2024, 1, 7⟩, []⟩]
    ⟨.num 1, .null, .num 2, some ⟨2024, 1, 7⟩, []⟩
    (List.mem_singleton.mpr rfl)
    (fun _ h => CellValue.noConfusion h)
    (fun _ h => CellValue.noConfusion h)
    (fun _ h => CellValue.noConfusion h)

/-! ### C2 -/

/-- C2: the spec says a non-positive base yields not-a-number rates, and the
code even carries the guard `if base_number > 0 else float("nan")` — but both
formulas are computed eagerly before that guard, so a base of exactly zero
raises `ZeroDivisionError` on the first tracked metric and the endpoint
answers with an error response instead of NaN rates. For a positive base the
intended formulas do hold (base 100, latest 主日 count 120 gives rate 20, a
relative deviation, while the simple coverage ratio is used for the rest). -/
theorem calculate_rates_zero_base_raises :
    calculate_rates_core [(⟨2024, 1, 7⟩, [("主日", 120), ("小排", 80)])] 0
        = .error "ZeroDivisionError: division by zero" ∧
      (calculate_rates_core [(⟨2024, 1, 7⟩, [("主日", 120), ("小排", 80)])] 100).map
          (fun l => l.map (fun p => (p.1, p.2.latest_rate)))
        = .ok [("主日", some 20), ("小排", some 80), ("晨興", some 0), ("禱告", some 0)] := by
  constructor
  · decide
  · simp +decide only [calculate_rates_core, rateLoop, rate_entry, pyDiv, latestOf, avgOf,
      METRICS, tsGet, List.find?, Except.map, List.isEmpty, List.getLast?, List.map,
      List.sum_cons, List.sum_nil, List.length, Option.map, Option.getD]
    norm_num

/-! ### C3, counterexample -/

/-- Counterexample to C3 as stated: on this filename the bare date pattern
matches and captures `(2024, 13, 1)`, yet the Date Extractor does not return
that triple — the timestamp constructor raises on the invalid month, so the
call raises instead of returning. -/
theorem parse_matched_invalid_date_raises :
    searchDatePatterns (basenameChars "report2024年13月1日.xls".toList)
        = some (2024, 13, 1) ∧
      parse_week_end_date_from_filename "report2024年13月1日.xls"
        = .error "ValueError: invalid or out-of-range date" := by
  refine ⟨by decide, by decide⟩

/-! ### C5, counterexample -/

/-- Counterexample to C5 as stated: two files with identical content and
parseable filename dates — but the dates differ, so the two copies stamp
different week-ending dates and deduplication keeps both rows: two copies
yield two rows where one copy yields one. -/
theorem aggregate_identical_content_twice_not_idempotent :
    fileA.content = fileA14.content ∧
      parse_week_end_date_from_filename fileA.name = .ok (some ⟨2024, 1, 7⟩) ∧
      parse_week_end_date_from_filename fileA14.name = .ok (some ⟨2024, 1, 14⟩) ∧
      (aggregate_reports [fileA]).map List.length = .ok 1 ∧
      (aggregate_reports [fileA, fileA14]).map List.length = .ok 2 := by
  refine ⟨by decide, by decide, by decide, by decide, by decide⟩

/-! ### C7, counterexample -/

/-- Counterexample to C7 as stated: a parseable negative source cell is kept
as a negative number by `pd.to_numeric(...).fillna(0)` — only unparseable
values map to zero — so a stored metric value need not be a non-negative
count. -/
theorem loader_stores_negative_metric_value :
    read_single_report ⟨"a2024年1月7日.xls", some ⟨["大區", "主日"], [[.str "A", .str "-5"]]⟩⟩
        = .ok (some [{ hall := .str "", region := .str "A", sub := .str "未分小區",
                       week := some ⟨2024, 1, 7⟩, metrics := [("主日", -5)] }]) ∧
      ((-5 : ℚ) < 0) := by
  refine ⟨by decide, by decide⟩

/-! ### C4, counterexample -/

/-- Counterexample to C4 as stated: a corpus row whose region value is
missing (`NaN`) belongs to the all-scope series but to no region name, so
the all-scope sum (5) differs from the sum over every partition of the
(empty) region-name set (0). Such a row is reachable: the loader only
requires the region column to exist, not its cells to be non-missing, and
summary filtering keeps non-strings. -/
theorem timeseries_total_exceeds_partition_sum_on_null_region :
    regionNames [⟨.str "", .null, .str "未分小區", some ⟨2024, 1, 7⟩, [("主日", 5)]⟩] = [] ∧
      tsVal (build_region_timeseries
          [⟨.str "", .null, .str "未分小區", some ⟨2024, 1, 7⟩, [("主日", 5)]⟩] "總計")
          ⟨2024, 1, 7⟩ "主日" = 5 ∧
      (([] : List (List String)).map (fun part => (part.map (fun n =>
          tsVal (build_region_timeseries
            [⟨.str "", .null, .str "未分小區", some ⟨2024, 1, 7⟩, [("主日", 5)]⟩] n)
            ⟨2024, 1, 7⟩ "主日")).sum)).sum = 0 ∧
      ((5 : ℚ) ≠ 0) := by
  refine ⟨by decide, ?_, by decide, by decide⟩
  simp +decide only [build_region_timeseries, scopeRows, presentCols, weeksOf, sortDates,
    sortBy, insertBy, rowsOfWeek, sumMetric, addTotalVisits, tsVal, tsGet, Row.metric,
    NUMERIC_COLUMNS_CANDIDATES, List.filterMap, List.dedup, List.filter, List.map,
    List.find?, List.isEmpty, List.any, Option.map, Option.getD, List.sum_cons, List.sum_nil]
  norm_num

end PopulationAnalysis
